import Mathlib

/-!
Shallow embedding of the region-constrained defect compositing and
annotation-synthesis engine of this repository
(`batch_transfer/batch_generator.py`, `batch_transfer/layer_editor.py`,
`defect_transfer.py`), together with theorems settling the frozen claims
about it.  Pixel coordinates and sizes are embedded as `ℕ`/`ℤ`, exact
pixel arithmetic as `ℚ`, and the rotation geometry over an arbitrary
linear ordered field (instantiated at `ℚ` for concrete evaluation).
-/

/-! ## Solid-region placement sampling (`generate_batch`, lines 144-295) -/

/-- Bounding box of a layer region's valid pixels, as the four variables
`min_y, max_y, min_x, max_x` of `generate_batch` (lines 147-148, 215-222). -/
structure Bbox where
  min_y : ℕ
  max_y : ℕ
  min_x : ℕ
  max_x : ℕ
deriving DecidableEq, Repr

/-- Line 271: `layer_height = max(1, max_y - min_y + 1)`.  Subtraction is on
`ℕ` (coordinates are pixel indices, `max_y ≥ min_y` whenever the region has a
valid pixel). -/
def layerHeight (b : Bbox) : ℕ := max 1 (b.max_y - b.min_y + 1)

/-- Line 272: `layer_width = max(1, max_x - min_x + 1)`. -/
def layerWidth (b : Bbox) : ℕ := max 1 (b.max_x - b.min_x + 1)

/-- Line 282: `available_height = max(0, layer_height - new_h)`; truncated `ℕ`
subtraction coincides with Python's `max(0, ...)` here. -/
def availableHeight (b : Bbox) (new_h : ℕ) : ℕ := layerHeight b - new_h

/-- Line 283: `available_width = max(0, layer_width - new_w)`. -/
def availableWidth (b : Bbox) (new_w : ℕ) : ℕ := layerWidth b - new_w

/-- Lines 285-295: solid-region placement.  `off_y` and `off_x` stand for the
drawn values of `random.randint(0, available_height)` and
`random.randint(0, available_width)`.  Returns `(center_y, center_x)`:
when both available extents are positive, `center_y = min_y + offset_y +
new_h // 2` (line 290); otherwise the midpoint `((min_y + max_y) // 2,
(min_x + max_x) // 2)` (lines 294-295). -/
def solidCenter (b : Bbox) (new_h new_w off_y off_x : ℕ) : ℕ × ℕ :=
  if 0 < availableHeight b new_h ∧ 0 < availableWidth b new_w then
    (b.min_y + off_y + new_h / 2, b.min_x + off_x + new_w / 2)
  else
    ((b.min_y + b.max_y) / 2, (b.min_x + b.max_x) / 2)

/-! ## Target rectangle and canvas clipping (lines 329-420) -/

/-- An axis-aligned pixel rectangle `[left, right) × [top, bottom)` in canvas
coordinates; pre-clipping it may stick out of the canvas, hence `ℤ`. -/
structure Rect where
  left : ℤ
  top : ℤ
  right : ℤ
  bottom : ℤ
deriving DecidableEq, Repr

/-- Lines 331-334: the target rectangle is computed purely from the sampled
center and the transformed sprite size: `top_y = center_y - new_h // 2`,
`left_x = center_x - new_w // 2`, `bottom_y = top_y + new_h`,
`right_x = left_x + new_w`. -/
def targetRect (center_y center_x new_h new_w : ℤ) : Rect :=
  { left := center_x - new_w / 2
    top := center_y - new_h / 2
    right := center_x - new_w / 2 + new_w
    bottom := center_y - new_h / 2 + new_h }

/-- Lines 365-368: clip against canvas bounds, `valid_top_y = max(0, top_y)`,
`valid_left_x = max(0, left_x)`, `valid_bottom_y = min(img_h, bottom_y)`,
`valid_right_x = min(img_w, right_x)`. -/
def clipRect (r : Rect) (imgH imgW : ℤ) : Rect :=
  { left := max 0 r.left
    top := max 0 r.top
    right := min imgW r.right
    bottom := min imgH r.bottom }

/-- Line 377: the guard `valid_bottom_y > valid_top_y and
valid_right_x > valid_left_x` under which a defect is actually composited
and recorded. -/
def rectNonempty (r : Rect) : Bool :=
  decide (r.top < r.bottom) && decide (r.left < r.right)

/-- One candidate defect placement for an image: the sampled center, the
transformed sprite extents, the resolved category label and the external
contours that `cv2.findContours` reports on its clipped mask (the contour
finder is an external library call, so its output is carried as data). -/
structure Placement where
  center_y : ℤ
  center_x : ℤ
  new_h : ℤ
  new_w : ℤ
  label : String
  contours : List (List (ℤ × ℤ))
deriving DecidableEq

/-- One entry of `defect_info_list` (lines 399-418): category label, clipped
placement rectangle, and the contours of the placed mask. -/
structure PlacedRecord where
  label : String
  rect : Rect
  contours : List (List (ℤ × ℤ))
deriving DecidableEq

/-- Lines 329-420: compute the target rectangle from the center, clip it, and
record the instance only when the clipped rectangle is nonempty; otherwise
only a warning is printed (line 420) and nothing is recorded. -/
def placeDefect (imgH imgW : ℤ) (p : Placement) : Option PlacedRecord :=
  let r := clipRect (targetRect p.center_y p.center_x p.new_h p.new_w) imgH imgW
  if rectNonempty r then some ⟨p.label, r, p.contours⟩ else none

/-- The per-image `defect_info_list`: the placement loop over
`defects_to_transfer` keeps exactly the instances whose clipped rectangle is
nonempty, in order. -/
def placedRecords (imgH imgW : ℤ) (ps : List Placement) : List PlacedRecord :=
  ps.filterMap (placeDefect imgH imgW)

/-! ## Per-pixel compositing (lines 339-408), over exact rationals -/

/-- Line 357: `draw_alpha = max(0.5, alpha)`.  The source computes this value
but never uses it in either compositing branch. -/
def drawAlpha (alpha : ℚ) : ℚ := max (1/2) alpha

/-- Per-pixel, per-channel compositing.  With an alpha mask the blend of line
392 is `blended = result_roi * (1 - mask_roi) + defect_roi * mask_roi`; with
no alpha channel the sprite value is written through (line 407). -/
def compositePixel (dst src : ℚ) (mask : Option ℚ) : ℚ :=
  match mask with
  | some m => dst * (1 - m) + src * m
  | none => src

/-- Spec-modelled reference formula (spec §4.3 step 5): `out = src*mask*blend
+ dst*(1 - mask*blend)` where `blend` is the requested overall strength
multiplier.  Used only to compare the source's compositing against the
spec's words. -/
def specBlendPixel (dst src mask blend : ℚ) : ℚ :=
  src * mask * blend + dst * (1 - mask * blend)

/-- Line 348: a sprite alpha byte `a` is normalized to `mask = a / 255`. -/
def maskNorm (a : ℕ) : ℚ := (a : ℚ) / 255

/-- Line 455: `mask_gray = (mask_roi * 255).astype(np.uint8)`; the cast
truncates toward zero, i.e. takes the floor of the nonnegative value. -/
def maskGray (a : ℕ) : ℤ := ⌊maskNorm a * 255⌋

/-- Foreground test of the contour finder: `cv2.findContours` treats any
nonzero pixel of `mask_gray` as foreground. -/
def maskForeground (a : ℕ) : Bool := decide (0 < maskGray a)

/-! ## Contour selection and polygon shape extraction (lines 446-496) -/

/-- Shoelace polygon area, the documented value of `cv2.contourArea`:
half the absolute cyclic sum of cross products of consecutive vertices. -/
def contourArea (pts : List (ℤ × ℤ)) : ℚ :=
  (((pts.zip (pts.rotate 1)).map
    (fun q : (ℤ × ℤ) × (ℤ × ℤ) => q.1.1 * q.2.2 - q.2.1 * q.1.2)).sum.natAbs : ℚ) / 2

/-- Comparator of line 479: `sorted(contours, key=cv2.contourArea,
reverse=True)` orders by area, largest first (stable). -/
def areaGe (a b : List (ℤ × ℤ)) : Bool := decide (contourArea b ≤ contourArea a)

/-- The sorted contour list of line 479. -/
def sortedContours (cs : List (List (ℤ × ℤ))) : List (List (ℤ × ℤ)) :=
  cs.mergeSort areaGe

/-- Lines 484-487: translate the points of a contour from ROI-local to canvas
coordinates by adding the placement rectangle's top-left corner. -/
def translatePoints (pts : List (ℤ × ℤ)) (r : Rect) : List (ℤ × ℤ) :=
  pts.map (fun q => (q.1 + r.left, q.2 + r.top))

/-- Lines 474-496: take the largest-area contour (head of the descending
sort), translate its points to canvas coordinates; if no point was produced
(no contour found, or the chosen contour is empty), fall back to the four
corners of the placement rectangle. -/
def shapePoints (cs : List (List (ℤ × ℤ))) (r : Rect) : List (ℤ × ℤ) :=
  let pts : List (ℤ × ℤ) :=
    match sortedContours cs with
    | [] => []
    | largest :: _ => translatePoints largest r
  if pts = [] then
    [(r.left, r.top), (r.right, r.top), (r.right, r.bottom), (r.left, r.bottom)]
  else pts

/-! ## Per-image JSON shapes and XML objects (lines 431-588) -/

/-- One `object` element of the PASCAL-VOC-like XML document (lines 553-582):
the bounding box written is exactly the clipped placement rectangle. -/
structure XmlObject where
  name : String
  xmin : ℤ
  ymin : ℤ
  xmax : ℤ
  ymax : ℤ

/-- Lines 553-582: one XML `object` per entry of `defect_info_list`. -/
def xmlObjects (rs : List PlacedRecord) : List XmlObject :=
  rs.map fun r => ⟨r.label, r.rect.left, r.rect.top, r.rect.right, r.rect.bottom⟩

/-- One polygon shape of the JSON document (lines 498-511). -/
structure JsonShape where
  label : String
  points : List (ℤ × ℤ)

/-- Lines 446-511: one JSON polygon shape per entry of `defect_info_list`,
whose points come from the contour extraction above. -/
def jsonShapes (rs : List PlacedRecord) : List JsonShape :=
  rs.map fun r => ⟨r.label, shapePoints r.contours r.rect⟩

/-! ## Hollow-region placement sampling (lines 203-267) -/

/-- Line 204: `np.where(layer_array > 0)` — the `(y, x)` indices of all
pixels with positive value, in row-major order. -/
def wherePixels (mask : List (List ℕ)) : List (ℕ × ℕ) :=
  (mask.enum.map (fun row =>
    row.2.enum.filterMap (fun c =>
      if 0 < c.2 then some (row.1, c.1) else none))).flatten

/-- The value of the mask at row `y`, column `x` (0 outside the array). -/
def maskValue (mask : List (List ℕ)) (y x : ℕ) : ℕ := (mask.getD y []).getD x 0

/-- Lines 249-267: hollow-region placement.  When the region has valid
pixels, `random_index` (the value of `random.randint(0, valid_pixel_count -
1)`, here `ridx`) selects one of them as the center (lines 260-262);
otherwise the center is the midpoint of the bounding-box variables, which
for a hollow region with no valid pixel still hold their full-canvas
defaults `min_y = 0, max_y = img_height - 1, min_x = 0, max_x = img_width -
1` (lines 147-148, 266-267).  Returns `(center_y, center_x)`. -/
def hollowCenter (mask : List (List ℕ)) (imgH imgW ridx : ℕ) : ℕ × ℕ :=
  let wp := wherePixels mask
  if 0 < wp.length then wp.getD ridx (0, 0)
  else ((0 + (imgH - 1)) / 2, (0 + (imgW - 1)) / 2)

/-! ## Random defect-subset selection (lines 93-103) -/

/-- Model of Python's `random.randint(a, b)` (uniform on the inclusive range
`[a, b]`): the oracle draw `r` is reduced into the range; `r` uniform makes
the result uniform. -/
def randint (a b r : ℕ) : ℕ := a + r % (b - a + 1)

/-- Line 98: `num_to_keep = random.randint(1, min(max_defects,
len(selected_defects)))`. -/
def numToKeep (maxDefects n r : ℕ) : ℕ := randint 1 (min maxDefects n) r

/-- Model of `random.sample(l, k)`: the library picks `k` distinct positions
of `l` (carried here as the index list `idxs`, with `idxs.length = k`,
`idxs.Nodup`, all indices in range) and returns the elements at those
positions. -/
def sampleList {α : Type} (l : List α) (idxs : List ℕ) : List α :=
  idxs.filterMap (fun i => l.get? i)

/-- Lines 93-103: if the random-defect flag is set and the selected-defect
list is nonempty, keep a random subset of size `num_to_keep`; otherwise keep
all selected defects. -/
def defectsToTransfer {α : Type} (flag : Bool) (defects : List α)
    (maxDefects r : ℕ) (pick : ℕ → List ℕ) : List α :=
  if flag = true ∧ defects.isEmpty = false then
    sampleList defects (pick (numToKeep maxDefects defects.length r))
  else defects

/-! ## Hollow-mask construction at save time (`layer_editor.py`, lines 355-385) -/

/-- A canvas-sized single-channel raster, pixel values in `ℕ` (uint8 values
are 0 or 255 for rasterized fills). -/
def MaskGrid (h w : ℕ) : Type := Fin h → Fin w → ℕ

/-- Pixel-wise `cv2.subtract` on uint8: saturating subtraction, which on
nonnegative values is exactly truncated `ℕ` subtraction. -/
def subMask {h w : ℕ} (a b : MaskGrid h w) : MaskGrid h w :=
  fun i j => a i j - b i j

/-- Lines 364-378: start from the rasterized fill of the outer contour and
subtract the rasterized fill of each inner contour in contour order. -/
def hollowMask {h w : ℕ} (outer : MaskGrid h w) (inners : List (MaskGrid h w)) :
    MaskGrid h w :=
  inners.foldl subMask outer

/-- The number of valid (nonzero) pixels of a mask. -/
def validPixelCount {h w : ℕ} (m : MaskGrid h w) : ℕ :=
  (Finset.univ.filter (fun p : Fin h × Fin w => 0 < m p.1 p.2)).card

/-- The number of pixels where both masks are nonzero. -/
def interCount {h w : ℕ} (a b : MaskGrid h w) : ℕ :=
  (Finset.univ.filter
    (fun p : Fin h × Fin w => 0 < a p.1 p.2 ∧ 0 < b p.1 p.2)).card

/-- A rasterized fill: every pixel is 0 or 255 (`cv2.fillPoly` writes 255). -/
def binaryMask {h w : ℕ} (m : MaskGrid h w) : Prop :=
  ∀ i j, m i j = 0 ∨ m i j = 255

/-- The inner fills are pairwise disjoint inside the outer fill: no pixel of
the outer fill lies in two distinct inner fills. -/
def innersDisjointOn {h w : ℕ} (outer : MaskGrid h w)
    (inners : List (MaskGrid h w)) : Prop :=
  inners.Pairwise (fun a b => ∀ i j, ¬(0 < a i j ∧ 0 < b i j ∧ 0 < outer i j))

/-! ## Rotation with grown output canvas (lines 304-327; also
`defect_transfer.py`, lines 142-181).  The geometry is embedded over an
arbitrary linear ordered field with floor, parametrized by the cosine `c`
and sine `s` of the rotation angle (the entries of
`cv2.getRotationMatrix2D(center, angle, 1.0)` with scale 1). -/

section Rotation

variable {K : Type} [LinearOrderedField K] [FloorRing K]

/-- Lines 307-308: the rotation center is the integer sprite center
`(w // 2, h // 2)`. -/
def rotCx (K : Type) [LinearOrderedField K] (w : ℕ) : K := ((w / 2 : ℕ) : K)

/-- The y coordinate of the integer sprite center, `h // 2`. -/
def rotCy (K : Type) [LinearOrderedField K] (h : ℕ) : K := ((h / 2 : ℕ) : K)

/-- Lines 314-316: `cos_theta = abs(M[0,0])`, `sin_theta = abs(M[0,1])`,
`new_width = int(h*sin_theta + w*cos_theta)`; the value is nonnegative so the
`int` cast is the floor. -/
def newWidth (c s : K) (w h : ℕ) : ℤ := ⌊(h : K) * |s| + (w : K) * |c|⌋

/-- Line 317: `new_height = int(h*cos_theta + w*sin_theta)`. -/
def newHeight (c s : K) (w h : ℕ) : ℤ := ⌊(h : K) * |c| + (w : K) * |s|⌋

/-- The translation entry `M[0,2]` of `cv2.getRotationMatrix2D`, which is
`(1-cos)*cx - sin*cy`, after the adjustment of line 320:
`M[0,2] += new_width/2 - center[0]` (true float division). -/
def rotM02 (c s : K) (w h : ℕ) : K :=
  (1 - c) * rotCx K w - s * rotCy K h + ((newWidth c s w h : K) / 2 - rotCx K w)

/-- The translation entry `M[1,2]`, which is `sin*cx + (1-cos)*cy`, after the
adjustment of line 321: `M[1,2] += new_height/2 - center[1]`. -/
def rotM12 (c s : K) (w h : ℕ) : K :=
  s * rotCx K w + (1 - c) * rotCy K h + ((newHeight c s w h : K) / 2 - rotCy K h)

/-- The affine map applied by `cv2.warpAffine` with the adjusted matrix:
`(x, y) ↦ (c·x + s·y + M02, -s·x + c·y + M12)`. -/
def rotMap (c s : K) (w h : ℕ) (p : K × K) : K × K :=
  (c * p.1 + s * p.2 + rotM02 c s w h,
   -s * p.1 + c * p.2 + rotM12 c s w h)

end Rotation

/-! ## Theorems settling the claims -/

/-- C1: for a Solid region, `available_height/width = max(0, bbox extent -
sprite extent)`; whenever both are positive, the uniformly drawn offsets
`off_y ∈ [0, availH]`, `off_x ∈ [0, availW]` center the sprite so that its
rectangle lies fully inside the region's bounding box; otherwise the sprite
is centered on the bbox midpoint. -/
theorem C1_solid_placement (b : Bbox) (new_h new_w off_y off_x : ℕ)
    (hy : b.min_y ≤ b.max_y) (hx : b.min_x ≤ b.max_x)
    (hoy : off_y ≤ availableHeight b new_h)
    (hox : off_x ≤ availableWidth b new_w) :
    (availableHeight b new_h : ℤ) = max 0 ((b.max_y : ℤ) - b.min_y + 1 - new_h) ∧
    (availableWidth b new_w : ℤ) = max 0 ((b.max_x : ℤ) - b.min_x + 1 - new_w) ∧
    (0 < availableHeight b new_h → 0 < availableWidth b new_w →
      ((b.min_y : ℤ) ≤
          (targetRect (solidCenter b new_h new_w off_y off_x).1
            (solidCenter b new_h new_w off_y off_x).2 new_h new_w).top ∧
        (targetRect (solidCenter b new_h new_w off_y off_x).1
            (solidCenter b new_h new_w off_y off_x).2 new_h new_w).bottom ≤
          (b.max_y : ℤ) + 1 ∧
        (b.min_x : ℤ) ≤
          (targetRect (solidCenter b new_h new_w off_y off_x).1
            (solidCenter b new_h new_w off_y off_x).2 new_h new_w).left ∧
        (targetRect (solidCenter b new_h new_w off_y off_x).1
            (solidCenter b new_h new_w off_y off_x).2 new_h new_w).right ≤
          (b.max_x : ℤ) + 1)) ∧
    (¬(0 < availableHeight b new_h ∧ 0 < availableWidth b new_w) →
      solidCenter b new_h new_w off_y off_x =
        ((b.min_y + b.max_y) / 2, (b.min_x + b.max_x) / 2)) := by
  refine ⟨?_, ?_, ?_, ?_⟩
  · simp only [availableHeight, layerHeight]
    omega
  · simp only [availableWidth, layerWidth]
    omega
  · intro h1 h2
    simp only [solidCenter, if_pos (And.intro h1 h2), targetRect]
    simp only [availableHeight, layerHeight, availableWidth, layerWidth] at h1 h2 hoy hox
    refine ⟨?_, ?_, ?_, ?_⟩ <;> omega
  · intro h
    simp only [solidCenter, if_neg h]

/-- C1 witness: a concrete 100×200 bounding box with a 20×30 sprite and
offsets inside the available area. -/
theorem C1_solid_placement_witness :
    (availableHeight ⟨0, 99, 0, 199⟩ 20 : ℤ) =
        max 0 ((99 : ℤ) - 0 + 1 - 20) ∧
      (availableWidth ⟨0, 99, 0, 199⟩ 30 : ℤ) = max 0 ((199 : ℤ) - 0 + 1 - 30) ∧
      (0 < availableHeight ⟨0, 99, 0, 199⟩ 20 →
        0 < availableWidth ⟨0, 99, 0, 199⟩ 30 →
        ((0 : ℤ) ≤
            (targetRect (solidCenter ⟨0, 99, 0, 199⟩ 20 30 5 7).1
              (solidCenter ⟨0, 99, 0, 199⟩ 20 30 5 7).2 20 30).top ∧
          (targetRect (solidCenter ⟨0, 99, 0, 199⟩ 20 30 5 7).1
              (solidCenter ⟨0, 99, 0, 199⟩ 20 30 5 7).2 20 30).bottom ≤
            (99 : ℤ) + 1 ∧
          (0 : ℤ) ≤
            (targetRect (solidCenter ⟨0, 99, 0, 199⟩ 20 30 5 7).1
              (solidCenter ⟨0, 99, 0, 199⟩ 20 30 5 7).2 20 30).left ∧
          (targetRect (solidCenter ⟨0, 99, 0, 199⟩ 20 30 5 7).1
              (solidCenter ⟨0, 99, 0, 199⟩ 20 30 5 7).2 20 30).right ≤
            (199 : ℤ) + 1)) ∧
      (¬(0 < availableHeight ⟨0, 99, 0, 199⟩ 20 ∧
          0 < availableWidth ⟨0, 99, 0, 199⟩ 30) →
        solidCenter ⟨0, 99, 0, 199⟩ 20 30 5 7 = ((0 + 99) / 2, (0 + 199) / 2)) :=
  C1_solid_placement ⟨0, 99, 0, 199⟩ 20 30 5 7 (by decide) (by decide)
    (by decide) (by decide)

/-- C2 counterexample: compositing does not follow
`out = src*mask*blend + dst*(1 - mask*blend)` with `blend` the requested
strength — with requested blend strength 0, destination 0, source 200 and a
fully opaque mask pixel, the source writes 200 while the claimed formula
(which would leave the canvas unchanged) gives 0. -/
theorem C2_blend_counterexample :
    compositePixel 0 200 (some 1) ≠ specBlendPixel 0 200 1 0 := by
  norm_num [compositePixel, specBlendPixel]

/-- C2 (amended): with an alpha channel present the per-channel compositing
is `out = dst*(1-mask) + src*mask`, i.e. the claimed formula with the blend
strength fixed at 1 — the requested strength multiplier is never applied, so
only a zero mask (not a zero blend strength) leaves a pixel unchanged. -/
theorem C2_blend_formula (dst src m : ℚ) :
    compositePixel dst src (some m) = specBlendPixel dst src m 1 ∧
      compositePixel dst src (some 0) = dst := by
  constructor
  · simp only [compositePixel, specBlendPixel]
    ring
  · simp only [compositePixel]
    ring

/-- C3 counterexample: with no alpha channel and requested blend strength 0,
the 50%-floored blend demanded by the claim would give
`0*(1-0.5) + 200*0.5 = 100`, but the source hard-overwrites the pixel
with the sprite value 200. -/
theorem C3_overwrite_counterexample :
    compositePixel 0 200 none ≠ specBlendPixel 0 200 1 (drawAlpha 0) := by
  norm_num [compositePixel, specBlendPixel, drawAlpha]

/-- C3 (amended): with no alpha channel the composite is a hard overwrite of
the overlap region at effective full opacity — equal to the blend formula at
mask 1 and strength 1, for every requested strength; the floored value
`draw_alpha = max(0.5, alpha)` is computed (and is indeed ≥ 1/2, equal to
1/2 at requested strength 0) but never applied to the output. -/
theorem C3_overwrite_full_opacity (dst src alpha : ℚ) :
    compositePixel dst src none = src ∧
      compositePixel dst src none = specBlendPixel dst src 1 1 ∧
      1/2 ≤ drawAlpha alpha ∧ drawAlpha 0 = 1/2 := by
  refine ⟨rfl, ?_, le_max_left _ _, ?_⟩
  · simp only [compositePixel, specBlendPixel]
    ring
  · simp only [drawAlpha]
    norm_num

/-- C6: the target rectangle comes purely from the sampled center
(`top = center_y - new_h // 2`, `left = center_x - new_w // 2`); when the
canvas-clipped rectangle is empty the instance is dropped — it produces no
record — and the rest of the batch is unaffected. -/
theorem C6_empty_clip_dropped (imgH imgW : ℤ) (p : Placement)
    (pre post : List Placement)
    (hempty : rectNonempty
      (clipRect (targetRect p.center_y p.center_x p.new_h p.new_w) imgH imgW) =
        false) :
    (targetRect p.center_y p.center_x p.new_h p.new_w).top =
        p.center_y - p.new_h / 2 ∧
      (targetRect p.center_y p.center_x p.new_h p.new_w).left =
        p.center_x - p.new_w / 2 ∧
      placeDefect imgH imgW p = none ∧
      placedRecords imgH imgW (pre ++ p :: post) =
        placedRecords imgH imgW pre ++ placedRecords imgH imgW post := by
  have hnone : placeDefect imgH imgW p = none := by
    simp only [placeDefect, hempty]
    simp
  refine ⟨rfl, rfl, hnone, ?_⟩
  simp only [placedRecords, List.filterMap_append, List.filterMap_cons, hnone]

/-- C6 witness: a 10×10 sprite centered far off a 100×100 canvas is dropped
while surrounding placements are kept. -/
theorem C6_empty_clip_dropped_witness :
    (targetRect (-1000) (-1000) 10 10).top = (-1000 : ℤ) - 10 / 2 ∧
      (targetRect (-1000) (-1000) 10 10).left = (-1000 : ℤ) - 10 / 2 ∧
      placeDefect 100 100 ⟨-1000, -1000, 10, 10, "d", []⟩ = none ∧
      placedRecords 100 100
          ([⟨50, 50, 10, 10, "a", []⟩] ++ ⟨-1000, -1000, 10, 10, "d", []⟩ ::
            [⟨60, 60, 10, 10, "b", []⟩]) =
        placedRecords 100 100 [⟨50, 50, 10, 10, "a", []⟩] ++
          placedRecords 100 100 [⟨60, 60, 10, 10, "b", []⟩] :=
  C6_empty_clip_dropped 100 100 ⟨-1000, -1000, 10, 10, "d", []⟩
    [⟨50, 50, 10, 10, "a", []⟩] [⟨60, 60, 10, 10, "b", []⟩] (by decide)

/-- Helper: a record kept in `defect_info_list` carries the canvas-clipped
rectangle, which satisfies the annotation bounds. -/
theorem placedRecords_rect_bounds (imgH imgW : ℤ) (ps : List Placement)
    (r : PlacedRecord) (hr : r ∈ placedRecords imgH imgW ps) :
    0 ≤ r.rect.left ∧ r.rect.left < r.rect.right ∧ r.rect.right ≤ imgW ∧
      0 ≤ r.rect.top ∧ r.rect.top < r.rect.bottom ∧ r.rect.bottom ≤ imgH := by
  obtain ⟨p, _, hp⟩ := List.mem_filterMap.mp hr
  unfold placeDefect at hp
  by_cases hcond : rectNonempty
      (clipRect (targetRect p.center_y p.center_x p.new_h p.new_w) imgH imgW) = true
  · rw [if_pos hcond] at hp
    obtain rfl : r = ⟨p.label,
        clipRect (targetRect p.center_y p.center_x p.new_h p.new_w) imgH imgW,
        p.contours⟩ := by
      injection hp with h
      exact h.symm
    simp only [rectNonempty, Bool.and_eq_true, decide_eq_true_eq, clipRect] at hcond ⊢
    refine ⟨le_max_left _ _, hcond.2, min_le_left _ _,
      le_max_left _ _, hcond.1, min_le_left _ _⟩
  · rw [if_neg hcond] at hp
    exact absurd hp (by simp)

/-- C10: every composited defect instance records the canvas-clipped
rectangle, so its XML bounding box satisfies `0 ≤ xmin < xmax ≤ width` and
`0 ≤ ymin < ymax ≤ height`; and the XML objects are in one-to-one,
label-preserving correspondence with the JSON polygon shapes of the same
image. -/
theorem C10_bbox_bounds_and_correspondence (imgH imgW : ℤ) (ps : List Placement)
    (r : PlacedRecord) (hr : r ∈ placedRecords imgH imgW ps) :
    (0 ≤ r.rect.left ∧ r.rect.left < r.rect.right ∧ r.rect.right ≤ imgW ∧
      0 ≤ r.rect.top ∧ r.rect.top < r.rect.bottom ∧ r.rect.bottom ≤ imgH) ∧
    (xmlObjects (placedRecords imgH imgW ps)).length =
      (jsonShapes (placedRecords imgH imgW ps)).length ∧
    (xmlObjects (placedRecords imgH imgW ps)).map (fun o => o.name) =
      (jsonShapes (placedRecords imgH imgW ps)).map (fun sh => sh.label) := by
  refine ⟨placedRecords_rect_bounds imgH imgW ps r hr, ?_, ?_⟩
  · simp [xmlObjects, jsonShapes]
  · simp [xmlObjects, jsonShapes, List.map_map]

/-- C10 witness: one in-canvas placement on a 100×100 canvas. -/
theorem C10_bbox_bounds_and_correspondence_witness :
    ((0 : ℤ) ≤ (PlacedRecord.mk "a" ⟨45, 45, 55, 55⟩ []).rect.left ∧
      (PlacedRecord.mk "a" ⟨45, 45, 55, 55⟩ []).rect.left <
        (PlacedRecord.mk "a" ⟨45, 45, 55, 55⟩ []).rect.right ∧
      (PlacedRecord.mk "a" ⟨45, 45, 55, 55⟩ []).rect.right ≤ 100 ∧
      (0 : ℤ) ≤ (PlacedRecord.mk "a" ⟨45, 45, 55, 55⟩ []).rect.top ∧
      (PlacedRecord.mk "a" ⟨45, 45, 55, 55⟩ []).rect.top <
        (PlacedRecord.mk "a" ⟨45, 45, 55, 55⟩ []).rect.bottom ∧
      (PlacedRecord.mk "a" ⟨45, 45, 55, 55⟩ []).rect.bottom ≤ 100) ∧
    (xmlObjects (placedRecords 100 100 [⟨50, 50, 10, 10, "a", []⟩])).length =
      (jsonShapes (placedRecords 100 100 [⟨50, 50, 10, 10, "a", []⟩])).length ∧
    (xmlObjects (placedRecords 100 100 [⟨50, 50, 10, 10, "a", []⟩])).map
        (fun o => o.name) =
      (jsonShapes (placedRecords 100 100 [⟨50, 50, 10, 10, "a", []⟩])).map
        (fun sh => sh.label) :=
  C10_bbox_bounds_and_correspondence 100 100 [⟨50, 50, 10, 10, "a", []⟩]
    ⟨"a", ⟨45, 45, 55, 55⟩, []⟩ (by decide)

/-- Helper: `areaGe` is a transitive total comparator, so the head of the
descending sort belongs to the input list and has maximal area. -/
theorem sortedContours_head_max (cs : List (List (ℤ × ℤ)))
    (largest : List (ℤ × ℤ)) (rest : List (List (ℤ × ℤ)))
    (hs : sortedContours cs = largest :: rest) :
    largest ∈ cs ∧ ∀ c ∈ cs, contourArea c ≤ contourArea largest := by
  have hperm : (cs.mergeSort areaGe).Perm cs := List.mergeSort_perm cs areaGe
  have hsorted : List.Pairwise (fun a b => areaGe a b = true) (cs.mergeSort areaGe) :=
    List.sorted_mergeSort
      (by
        intro a b c hab hbc
        simp only [areaGe, decide_eq_true_eq] at hab hbc ⊢
        exact le_trans hbc hab)
      (by
        intro a b
        simp only [areaGe, Bool.or_eq_true, decide_eq_true_eq]
        exact le_total (contourArea b) (contourArea a))
      cs
  rw [show cs.mergeSort areaGe = sortedContours cs from rfl, hs] at hperm hsorted
  constructor
  · exact hperm.mem_iff.mp (List.mem_cons_self _ _)
  · intro c hc
    have : c ∈ largest :: rest := hperm.mem_iff.mpr hc
    rcases List.mem_cons.mp this with rfl | hmem
    · exact le_refl _
    · have := (List.pairwise_cons.mp hsorted).1 c hmem
      simpa only [areaGe, decide_eq_true_eq] using this

/-- C7: the placed alpha mask is binarized with any nonzero alpha byte as
foreground; among the found external contours only the one with the largest
area is kept, its points are translated by the placement rectangle's
top-left corner; and when no contour is found the four corners of the
placement rectangle are emitted. -/
theorem C7_shape_extraction (a : ℕ) (cs : List (List (ℤ × ℤ))) (r : Rect)
    (largest : List (ℤ × ℤ)) (rest : List (List (ℤ × ℤ)))
    (hs : sortedContours cs = largest :: rest) (hne : largest ≠ []) :
    (maskForeground a = true ↔ 0 < a) ∧
    shapePoints cs r = translatePoints largest r ∧
    largest ∈ cs ∧ (∀ c ∈ cs, contourArea c ≤ contourArea largest) ∧
    (∀ cs2 : List (List (ℤ × ℤ)), cs2 = [] →
      shapePoints cs2 r =
        [(r.left, r.top), (r.right, r.top), (r.right, r.bottom),
          (r.left, r.bottom)]) := by
  obtain ⟨hmem, hmax⟩ := sortedContours_head_max cs largest rest hs
  refine ⟨?_, ?_, hmem, hmax, ?_⟩
  · simp only [maskForeground, maskGray, maskNorm, decide_eq_true_eq]
    have hval : (a : ℚ) / 255 * 255 = (a : ℚ) := by
      field_simp
    rw [hval, Int.floor_natCast]
    exact_mod_cast Iff.rfl
  · unfold shapePoints
    rw [hs]
    have hnil : translatePoints largest r ≠ [] := by
      simp only [translatePoints, ne_eq, List.map_eq_nil_iff]
      exact hne
    simp [hnil]
  · intro cs2 h2
    subst h2
    unfold shapePoints sortedContours
    simp [List.mergeSort_nil]

/-- C7 witness: one 3×3-square contour, an opaque alpha byte, and the empty
contour list for the fallback. -/
theorem C7_shape_extraction_witness :
    (maskForeground 5 = true ↔ 0 < 5) ∧
    shapePoints [([((0 : ℤ), (0 : ℤ)), (3, 0), (3, 3), (0, 3)] : List (ℤ × ℤ))]
        ⟨10, 20, 30, 40⟩ =
      translatePoints ([((0 : ℤ), (0 : ℤ)), (3, 0), (3, 3), (0, 3)] : List (ℤ × ℤ))
        ⟨10, 20, 30, 40⟩ ∧
    ([((0 : ℤ), (0 : ℤ)), (3, 0), (3, 3), (0, 3)] : List (ℤ × ℤ)) ∈
      [([((0 : ℤ), (0 : ℤ)), (3, 0), (3, 3), (0, 3)] : List (ℤ × ℤ))] ∧
    (∀ c ∈ [([((0 : ℤ), (0 : ℤ)), (3, 0), (3, 3), (0, 3)] : List (ℤ × ℤ))],
      contourArea c ≤
        contourArea ([((0 : ℤ), (0 : ℤ)), (3, 0), (3, 3), (0, 3)] : List (ℤ × ℤ))) ∧
    (∀ cs2 : List (List (ℤ × ℤ)), cs2 = [] →
      shapePoints cs2 ⟨10, 20, 30, 40⟩ =
        [((Rect.mk 10 20 30 40).left, (Rect.mk 10 20 30 40).top),
          ((Rect.mk 10 20 30 40).right, (Rect.mk 10 20 30 40).top),
          ((Rect.mk 10 20 30 40).right, (Rect.mk 10 20 30 40).bottom),
          ((Rect.mk 10 20 30 40).left, (Rect.mk 10 20 30 40).bottom)]) := by
  exact C7_shape_extraction 5
    [([((0 : ℤ), (0 : ℤ)), (3, 0), (3, 3), (0, 3)] : List (ℤ × ℤ))] ⟨10, 20, 30, 40⟩
    ([((0 : ℤ), (0 : ℤ)), (3, 0), (3, 3), (0, 3)] : List (ℤ × ℤ)) []
    (by simp [sortedContours, List.mergeSort_singleton]) (by decide)

/-- Helper: every index pair reported by `np.where(layer_array > 0)` points
at a pixel with positive value. -/
theorem mem_wherePixels {mask : List (List ℕ)} {p : ℕ × ℕ}
    (hp : p ∈ wherePixels mask) : 0 < maskValue mask p.1 p.2 := by
  simp only [wherePixels, List.mem_flatten, List.mem_map] at hp
  obtain ⟨l, ⟨q, hq, rfl⟩, hpl⟩ := hp
  simp only [List.mem_filterMap] at hpl
  obtain ⟨c, hc, hsome⟩ := hpl
  by_cases hv : 0 < c.2
  · rw [if_pos hv] at hsome
    injection hsome with heq
    subst heq
    have hrow : mask[q.1]? = some q.2 := List.mem_enum_iff_getElem?.mp hq
    have hcol : q.2[c.1]? = some c.2 := List.mem_enum_iff_getElem?.mp hc
    simp only [maskValue, List.getD_eq_getElem?_getD, hrow, hcol, Option.getD_some]
    exact hv
  · rw [if_neg hv] at hsome
    exact absurd hsome (by simp)

/-- C4: for a Hollow region with at least one valid pixel, the sampler
ignores the sprite extent and returns the `ridx`-th valid pixel (with
`ridx` the value of the uniform draw `random.randint(0, valid_pixel_count -
1)`), which always carries a nonzero mask value; with no valid pixel the
center falls back to the midpoint of the bounding-box variables, which then
still hold their full-canvas defaults. -/
theorem C4_hollow_center (mask : List (List ℕ)) (imgH imgW ridx : ℕ)
    (hlen : ridx < (wherePixels mask).length) :
    hollowCenter mask imgH imgW ridx = (wherePixels mask).get ⟨ridx, hlen⟩ ∧
    0 < maskValue mask (hollowCenter mask imgH imgW ridx).1
        (hollowCenter mask imgH imgW ridx).2 ∧
    (∀ m2 : List (List ℕ), (wherePixels m2).length = 0 →
      hollowCenter m2 imgH imgW ridx =
        ((0 + (imgH - 1)) / 2, (0 + (imgW - 1)) / 2)) := by
  have hpos : 0 < (wherePixels mask).length := Nat.pos_of_ne_zero (by omega)
  have hcen : hollowCenter mask imgH imgW ridx =
      (wherePixels mask).get ⟨ridx, hlen⟩ := by
    simp only [hollowCenter, if_pos hpos]
    rw [List.getD_eq_getElem _ _ hlen, List.get_eq_getElem]
  refine ⟨hcen, ?_, ?_⟩
  · rw [hcen]
    exact mem_wherePixels (List.get_mem _ _ _)
  · intro m2 h2
    simp only [hollowCenter, h2]
    simp

/-- C4 witness: a 3×3 ring mask (center pixel removed), drawing the 5th of
its 8 valid pixels. -/
theorem C4_hollow_center_witness :
    hollowCenter [[1, 1, 1], [1, 0, 1], [1, 1, 1]] 3 3 5 =
        (wherePixels [[1, 1, 1], [1, 0, 1], [1, 1, 1]]).get ⟨5, by decide⟩ ∧
      0 < maskValue [[1, 1, 1], [1, 0, 1], [1, 1, 1]]
          (hollowCenter [[1, 1, 1], [1, 0, 1], [1, 1, 1]] 3 3 5).1
          (hollowCenter [[1, 1, 1], [1, 0, 1], [1, 1, 1]] 3 3 5).2 ∧
      (∀ m2 : List (List ℕ), (wherePixels m2).length = 0 →
        hollowCenter m2 3 3 5 = ((0 + (3 - 1)) / 2, (0 + (3 - 1)) / 2)) :=
  C4_hollow_center [[1, 1, 1], [1, 0, 1], [1, 1, 1]] 3 3 5 (by decide)

/-- Helper: sampling at in-range positions returns one element per index. -/
theorem sampleList_length {α : Type} (l : List α) (idxs : List ℕ)
    (h : ∀ i ∈ idxs, i < l.length) :
    (sampleList l idxs).length = idxs.length := by
  induction idxs with
  | nil => rfl
  | cons i idxs ih =>
    have hi : i < l.length := h i (List.mem_cons_self i idxs)
    rw [sampleList, List.filterMap_cons_some (List.get?_eq_get hi),
      List.length_cons]
    rw [sampleList] at ih
    rw [ih (fun j hj => h j (List.mem_cons_of_mem i hj))]
    rfl

/-- Helper: every sampled element comes from the source list. -/
theorem sampleList_mem {α : Type} (l : List α) (idxs : List ℕ) (x : α)
    (hx : x ∈ sampleList l idxs) : x ∈ l := by
  obtain ⟨i, _, hget⟩ := List.mem_filterMap.mp hx
  exact List.get?_mem hget

/-- Helper: sampling a duplicate-free list at distinct in-range positions
yields distinct elements (sampling without replacement). -/
theorem sampleList_nodup {α : Type} (l : List α) (idxs : List ℕ)
    (hl : l.Nodup) (hn : idxs.Nodup) (h : ∀ i ∈ idxs, i < l.length) :
    (sampleList l idxs).Nodup := by
  induction idxs with
  | nil => exact List.nodup_nil
  | cons i idxs ih =>
    have hi : i < l.length := h i (List.mem_cons_self i idxs)
    rw [sampleList, List.filterMap_cons_some (List.get?_eq_get hi)]
    rw [List.nodup_cons] at hn ⊢
    refine ⟨?_, ih hn.2 (fun j hj => h j (List.mem_cons_of_mem i hj))⟩
    intro hmem
    obtain ⟨j, hj, hget⟩ := List.mem_filterMap.mp hmem
    have hjlt : j < l.length := h j (List.mem_cons_of_mem i hj)
    rw [List.get?_eq_get hjlt] at hget
    injection hget with hgeq
    have hfin : (⟨j, hjlt⟩ : Fin l.length) = ⟨i, hi⟩ := (hl.get_inj_iff).mp hgeq
    have hji : j = i := congrArg Fin.val hfin
    exact hn.1 (hji ▸ hj)

/-- C8: with the random-defect flag set and a nonempty enabled list, the
kept count `k = num_to_keep` lies in `[1, min(maxDefects, |defects|)]` (and
the oracle-to-range map attains every value of that range, supporting the
uniform draw); the kept defects are `k` distinct enabled defects sampled
without replacement; with the flag clear, all enabled defects are used. -/
theorem C8_random_subset {α : Type} (defects : List α) (maxDefects r : ℕ)
    (pick : ℕ → List ℕ) (hmax : 1 ≤ maxDefects) (hne : defects ≠ [])
    (hdnodup : defects.Nodup)
    (hlen : (pick (numToKeep maxDefects defects.length r)).length =
      numToKeep maxDefects defects.length r)
    (hnodup : (pick (numToKeep maxDefects defects.length r)).Nodup)
    (hbound : ∀ i ∈ pick (numToKeep maxDefects defects.length r),
      i < defects.length) :
    1 ≤ numToKeep maxDefects defects.length r ∧
    numToKeep maxDefects defects.length r ≤ min maxDefects defects.length ∧
    (defectsToTransfer true defects maxDefects r pick).length =
      numToKeep maxDefects defects.length r ∧
    (∀ x ∈ defectsToTransfer true defects maxDefects r pick, x ∈ defects) ∧
    (defectsToTransfer true defects maxDefects r pick).Nodup ∧
    (∀ k, 1 ≤ k → k ≤ min maxDefects defects.length →
      numToKeep maxDefects defects.length (k - 1) = k) ∧
    defectsToTransfer false defects maxDefects r pick = defects := by
  have hn : 1 ≤ defects.length := List.length_pos.mpr hne
  have hm : 1 ≤ min maxDefects defects.length := le_min hmax hn
  have hsel : defectsToTransfer true defects maxDefects r pick =
      sampleList defects (pick (numToKeep maxDefects defects.length r)) := by
    rw [defectsToTransfer, if_pos]
    exact ⟨rfl, List.isEmpty_eq_false.mpr hne⟩
  refine ⟨?_, ?_, ?_, ?_, ?_, ?_, ?_⟩
  · simp only [numToKeep, randint]
    omega
  · simp only [numToKeep, randint]
    have := Nat.mod_lt r (show 0 < min maxDefects defects.length - 1 + 1 by omega)
    omega
  · rw [hsel, sampleList_length _ _ hbound, hlen]
  · intro x hx
    rw [hsel] at hx
    exact sampleList_mem _ _ _ hx
  · rw [hsel]
    exact sampleList_nodup _ _ hdnodup hnodup hbound
  · intro k hk1 hk2
    simp only [numToKeep, randint]
    rw [Nat.mod_eq_of_lt (by omega)]
    omega
  · rw [defectsToTransfer, if_neg]
    simp

/-- C8 witness: three distinct enabled defects, a cap of 2, oracle draw 1,
and the sampler choosing positions `[2, 0]`. -/
theorem C8_random_subset_witness :
    1 ≤ numToKeep 2 ["a", "b", "c"].length 1 ∧
      numToKeep 2 ["a", "b", "c"].length 1 ≤ min 2 ["a", "b", "c"].length ∧
      (defectsToTransfer true ["a", "b", "c"] 2 1
            (fun k => (List.range k).map (fun i => 2 - i))).length =
        numToKeep 2 ["a", "b", "c"].length 1 ∧
      (∀ x ∈ defectsToTransfer true ["a", "b", "c"] 2 1
          (fun k => (List.range k).map (fun i => 2 - i)), x ∈ ["a", "b", "c"]) ∧
      (defectsToTransfer true ["a", "b", "c"] 2 1
          (fun k => (List.range k).map (fun i => 2 - i))).Nodup ∧
      (∀ k, 1 ≤ k → k ≤ min 2 ["a", "b", "c"].length →
        numToKeep 2 ["a", "b", "c"].length (k - 1) = k) ∧
      defectsToTransfer false ["a", "b", "c"] 2 1
          (fun k => (List.range k).map (fun i => 2 - i)) = ["a", "b", "c"] :=
  C8_random_subset ["a", "b", "c"] 2 1 (fun k => (List.range k).map (fun i => 2 - i))
    (by decide) (by decide) (by decide) (by decide) (by decide) (by decide)

/-- Helper: pixel-wise saturating subtraction keeps fill masks binary. -/
theorem subMask_binary {h w : ℕ} {a b : MaskGrid h w} (ha : binaryMask a)
    (hb : binaryMask b) : binaryMask (subMask a b) := by
  intro i j
  rcases ha i j with h1 | h1 <;> rcases hb i j with h2 | h2 <;>
    simp [subMask, h1, h2]

/-- Helper: the hollow mask never exceeds the accumulator it starts from. -/
theorem hollowMask_le {h w : ℕ} (inners : List (MaskGrid h w)) :
    ∀ (acc : MaskGrid h w) (i : Fin h) (j : Fin w),
      hollowMask acc inners i j ≤ acc i j := by
  induction inners with
  | nil => intro acc i j; exact le_refl _
  | cons I Is ih =>
    intro acc i j
    exact le_trans (ih (subMask acc I) i j) (Nat.sub_le _ _)

/-- Helper: a pixel touched by no inner fill keeps its outer value. -/
theorem hollowMask_untouched {h w : ℕ} (inners : List (MaskGrid h w)) :
    ∀ (acc : MaskGrid h w) (i : Fin h) (j : Fin w),
      (∀ I ∈ inners, I i j = 0) → hollowMask acc inners i j = acc i j := by
  induction inners with
  | nil => intro acc i j _; rfl
  | cons I Is ih =>
    intro acc i j hz
    have h0 : I i j = 0 := hz I (List.mem_cons_self I Is)
    have hrec : hollowMask (subMask acc I) Is i j = subMask acc I i j :=
      ih _ i j (fun J hJ => hz J (List.mem_cons_of_mem I hJ))
    show hollowMask (subMask acc I) Is i j = acc i j
    rw [hrec]
    simp [subMask, h0]

/-- Helper: a pixel covered by any inner fill ends at zero. -/
theorem hollowMask_zero {h w : ℕ} (inners : List (MaskGrid h w)) :
    ∀ (acc : MaskGrid h w), binaryMask acc → (∀ I ∈ inners, binaryMask I) →
      ∀ I0 ∈ inners, ∀ (i : Fin h) (j : Fin w),
        0 < I0 i j → hollowMask acc inners i j = 0 := by
  induction inners with
  | nil =>
    intro _ _ _ I0 h0
    exact absurd h0 (List.not_mem_nil I0)
  | cons I Is ih =>
    intro acc hacc hbin I0 hmem i j hpos
    rcases List.mem_cons.mp hmem with rfl | hmem2
    · have hI : I0 i j = 255 := by
        rcases hbin I0 (List.mem_cons_self _ _) i j with h0 | h0
        · omega
        · exact h0
      have hsub : subMask acc I0 i j = 0 := by
        rcases hacc i j with h0 | h0 <;> simp [subMask, h0, hI]
      have hle := hollowMask_le Is (subMask acc I0) i j
      show hollowMask (subMask acc I0) Is i j = 0
      omega
    · exact ih (subMask acc I) (subMask_binary hacc (hbin I (List.mem_cons_self _ _)))
        (fun J hJ => hbin J (List.mem_cons_of_mem I hJ)) I0 hmem2 i j hpos

/-- Helper: subtracting one binary fill removes exactly its overlap from the
valid-pixel count. -/
theorem validPixelCount_subMask {h w : ℕ} (a b : MaskGrid h w)
    (ha : binaryMask a) (hb : binaryMask b) :
    validPixelCount (subMask a b) = validPixelCount a - interCount b a := by
  unfold validPixelCount interCount
  have hsubset :
      Finset.univ.filter
          (fun p : Fin h × Fin w => 0 < b p.1 p.2 ∧ 0 < a p.1 p.2) ⊆
        Finset.univ.filter (fun p : Fin h × Fin w => 0 < a p.1 p.2) := by
    intro p hp
    simp only [Finset.mem_filter, Finset.mem_univ, true_and] at hp ⊢
    exact hp.2
  have hset :
      Finset.univ.filter (fun p : Fin h × Fin w => 0 < subMask a b p.1 p.2) =
        Finset.univ.filter (fun p : Fin h × Fin w => 0 < a p.1 p.2) \
          Finset.univ.filter
            (fun p : Fin h × Fin w => 0 < b p.1 p.2 ∧ 0 < a p.1 p.2) := by
    ext p
    simp only [Finset.mem_filter, Finset.mem_sdiff, Finset.mem_univ, true_and]
    rcases ha p.1 p.2 with h1 | h1 <;> rcases hb p.1 p.2 with h2 | h2 <;>
      simp [subMask, h1, h2]
  rw [hset, Finset.card_sdiff hsubset]

/-- Helper: if an inner fill is disjoint from another fill inside the outer
region, subtracting it does not change the other fill's overlap count. -/
theorem interCount_subMask {h w : ℕ} (O I J : MaskGrid h w)
    (hd : ∀ (i : Fin h) (j : Fin w), ¬(0 < I i j ∧ 0 < J i j ∧ 0 < O i j)) :
    interCount J (subMask O I) = interCount J O := by
  unfold interCount
  congr 1
  ext p
  simp only [Finset.mem_filter, Finset.mem_univ, true_and]
  constructor
  · rintro ⟨hJ, hOI⟩
    exact ⟨hJ, lt_of_lt_of_le hOI (Nat.sub_le _ _)⟩
  · rintro ⟨hJ, hO⟩
    refine ⟨hJ, ?_⟩
    have hI : I p.1 p.2 = 0 := by
      by_contra hne
      exact hd p.1 p.2 ⟨Nat.pos_of_ne_zero hne, hJ, hO⟩
    simpa [subMask, hI] using hO

/-- Helper: the valid-pixel count of the hollow mask, by induction over the
inner contours, assuming the inner fills are pairwise disjoint inside the
outer fill. -/
theorem hollowMask_count_aux {h w : ℕ} (inners : List (MaskGrid h w)) :
    ∀ (O : MaskGrid h w), binaryMask O → (∀ I ∈ inners, binaryMask I) →
      innersDisjointOn O inners →
      validPixelCount (hollowMask O inners) =
        validPixelCount O - (inners.map (fun I => interCount I O)).sum := by
  induction inners with
  | nil =>
    intro O _ _ _
    simp [hollowMask]
  | cons I Is ih =>
    intro O hO hbin hd
    have hbI : binaryMask I := hbin I (List.mem_cons_self I Is)
    have hOI : binaryMask (subMask O I) := subMask_binary hO hbI
    obtain ⟨hdI, hdIs⟩ := List.pairwise_cons.mp hd
    have hdIs2 : innersDisjointOn (subMask O I) Is := by
      refine hdIs.imp ?_
      intro a b hab i j hcon
      exact hab i j ⟨hcon.1, hcon.2.1, lt_of_lt_of_le hcon.2.2 (Nat.sub_le _ _)⟩
    have heq := ih (subMask O I) hOI
      (fun J hJ => hbin J (List.mem_cons_of_mem I hJ)) hdIs2
    have hmapeq : Is.map (fun J => interCount J (subMask O I)) =
        Is.map (fun J => interCount J O) :=
      List.map_congr_left (fun J hJ => interCount_subMask O I J (hdI J hJ))
    calc validPixelCount (hollowMask O (I :: Is))
        = validPixelCount (hollowMask (subMask O I) Is) := rfl
      _ = validPixelCount (subMask O I) -
            (Is.map (fun J => interCount J (subMask O I))).sum := heq
      _ = (validPixelCount O - interCount I O) -
            (Is.map (fun J => interCount J O)).sum := by
          rw [validPixelCount_subMask O I hO hbI, hmapeq]
      _ = validPixelCount O -
            (interCount I O + (Is.map (fun J => interCount J O)).sum) :=
          Nat.sub_sub _ _ _
      _ = validPixelCount O - ((I :: Is).map (fun J => interCount J O)).sum := by
          simp

/-- C9 counterexample: with outer fill covering a 1×2 canvas and the same
1-pixel inner fill listed twice (two overlapping inner contours), the stored
mask keeps 1 valid pixel but the claimed formula gives `2 - (1 + 1) = 0`. -/
theorem C9_count_counterexample :
    ¬(validPixelCount (hollowMask (fun _ _ => 255 : MaskGrid 1 2)
          [fun _ j => if j.val = 0 then 255 else 0,
            fun _ j => if j.val = 0 then 255 else 0]) =
        validPixelCount (fun _ _ => 255 : MaskGrid 1 2) -
          (([fun _ j => if j.val = 0 then 255 else 0,
              fun _ j => if j.val = 0 then 255 else 0] :
              List (MaskGrid 1 2)).map
            (fun I => interCount I (fun _ _ => 255))).sum) := by
  decide

/-- C9 (amended): the hollow mask is the outer fill minus each inner fill in
contour order with saturating subtraction, so every pixel is the outer value
where no inner fill covers it and 0 where some inner fill covers it; and
PROVIDED the inner fills are pairwise disjoint inside the outer fill, the
valid-pixel count equals the outer fill's count minus the count of each
inner fill's overlap with the outer fill.  (Without that disjointness the
subtraction double-counts shared pixels, see the counterexample.) -/
theorem C9_hollow_mask_count {h w : ℕ} (outer : MaskGrid h w)
    (inners : List (MaskGrid h w)) (ho : binaryMask outer)
    (hbin : ∀ I ∈ inners, binaryMask I) (hd : innersDisjointOn outer inners) :
    (∀ (i : Fin h) (j : Fin w), (∀ I ∈ inners, I i j = 0) →
      hollowMask outer inners i j = outer i j) ∧
    (∀ I ∈ inners, ∀ (i : Fin h) (j : Fin w), 0 < I i j →
      hollowMask outer inners i j = 0) ∧
    validPixelCount (hollowMask outer inners) =
      validPixelCount outer - (inners.map (fun I => interCount I outer)).sum := by
  refine ⟨?_, ?_, hollowMask_count_aux inners outer ho hbin hd⟩
  · intro i j hz
    exact hollowMask_untouched inners outer i j hz
  · intro I hI i j hpos
    exact hollowMask_zero inners outer ho hbin I hI i j hpos

/-- C9 witness: outer fill covering a 1×2 canvas and a single 1-pixel inner
fill; the count is `2 - 1 = 1`. -/
theorem C9_hollow_mask_count_witness :
    (∀ (i : Fin 1) (j : Fin 2),
      (∀ I ∈ ([fun _ j => if j.val = 0 then 255 else 0] : List (MaskGrid 1 2)),
        I i j = 0) →
      hollowMask (fun _ _ => 255 : MaskGrid 1 2)
          [fun _ j => if j.val = 0 then 255 else 0] i j =
        (fun _ _ => 255 : MaskGrid 1 2) i j) ∧
    (∀ I ∈ ([fun _ j => if j.val = 0 then 255 else 0] : List (MaskGrid 1 2)),
      ∀ (i : Fin 1) (j : Fin 2), 0 < I i j →
      hollowMask (fun _ _ => 255 : MaskGrid 1 2)
          [fun _ j => if j.val = 0 then 255 else 0] i j = 0) ∧
    validPixelCount (hollowMask (fun _ _ => 255 : MaskGrid 1 2)
        [fun _ j => if j.val = 0 then 255 else 0]) =
      validPixelCount (fun _ _ => 255 : MaskGrid 1 2) -
        (([fun _ j => if j.val = 0 then 255 else 0] : List (MaskGrid 1 2)).map
          (fun I => interCount I (fun _ _ => 255))).sum :=
  C9_hollow_mask_count (fun _ _ => 255)
    [fun _ j => if j.val = 0 then 255 else 0]
    (fun _ _ => Or.inr rfl)
    (by
      intro I hI i j
      simp only [List.mem_singleton] at hI
      subst hI
      by_cases hj : j.val = 0 <;> simp [hj])
    (by simp [innersDisjointOn])

/-- C5 counterexample: a 10×7 sprite rotated with cosine 4/5, sine 3/5 maps
its corner `(10, 7)` to x-coordinate 62/5 = 12.4, outside the grown output
canvas of width `int(7·(3/5) + 10·(4/5)) = 12` — the `int` truncation of the
grown size (together with the integer center) clips that corner. -/
theorem C5_rotation_corner_clipped :
    ¬((rotMap (4/5 : ℚ) (3/5) 10 7 ((10 : ℚ), (7 : ℚ))).1 ≤
      ((newWidth (4/5 : ℚ) (3/5) 10 7 : ℤ) : ℚ)) := by
  have hW : newWidth (4/5 : ℚ) (3/5) 10 7 = 12 := by
    unfold newWidth
    rw [abs_of_nonneg (by norm_num : (0 : ℚ) ≤ 3/5),
      abs_of_nonneg (by norm_num : (0 : ℚ) ≤ 4/5)]
    norm_num
  simp only [rotMap, rotM02, rotCx, rotCy, hW]
  norm_num

/-- C5 (amended): the output canvas is grown to
`new_w = int(h·|sin| + w·|cos|)`, `new_h = int(h·|cos| + w·|sin|)` and the
rotation matrix is translated so that the integer sprite center
`(w // 2, h // 2)` maps exactly onto the new canvas center; every point of
the sprite (its corners included) then maps within the output canvas
enlarged by at most 2 pixels on each side — exact containment fails in
general because the `int` truncation of the grown size and the integer
center can push a corner outside by a sub-pixel amount (see the
counterexample). -/
theorem C5_rotation_grown_canvas {K : Type} [LinearOrderedField K]
    [FloorRing K] (c s : K) (w h : ℕ) (hcs : c ^ 2 + s ^ 2 = 1) (px py : K)
    (hpx0 : 0 ≤ px) (hpxw : px ≤ (w : K)) (hpy0 : 0 ≤ py)
    (hpyh : py ≤ (h : K)) :
    rotMap c s w h (rotCx K w, rotCy K h) =
      ((newWidth c s w h : K) / 2, (newHeight c s w h : K) / 2) ∧
    -2 ≤ (rotMap c s w h (px, py)).1 ∧
    (rotMap c s w h (px, py)).1 ≤ (newWidth c s w h : K) + 2 ∧
    -2 ≤ (rotMap c s w h (px, py)).2 ∧
    (rotMap c s w h (px, py)).2 ≤ (newHeight c s w h : K) + 2 := by
  have hc : |c| ≤ 1 := (sq_le_one_iff_abs_le_one c).mp (by linarith [sq_nonneg s])
  have hs : |s| ≤ 1 := (sq_le_one_iff_abs_le_one s).mp (by linarith [sq_nonneg c])
  have hw1 : rotCx K w * 2 ≤ (w : K) := by
    unfold rotCx
    exact_mod_cast Nat.div_mul_le_self w 2
  have hw2 : (w : K) ≤ rotCx K w * 2 + 1 := by
    unfold rotCx
    exact_mod_cast (show w ≤ w / 2 * 2 + 1 by omega)
  have hh1 : rotCy K h * 2 ≤ (h : K) := by
    unfold rotCy
    exact_mod_cast Nat.div_mul_le_self h 2
  have hh2 : (h : K) ≤ rotCy K h * 2 + 1 := by
    unfold rotCy
    exact_mod_cast (show h ≤ h / 2 * 2 + 1 by omega)
  have hpxb : |px - rotCx K w| ≤ ((w : K) + 1) / 2 := by
    rw [abs_le]
    constructor <;> linarith
  have hpyb : |py - rotCy K h| ≤ ((h : K) + 1) / 2 := by
    rw [abs_le]
    constructor <;> linarith
  have hWle : ((newWidth c s w h : ℤ) : K) ≤ (h : K) * |s| + (w : K) * |c| :=
    Int.floor_le _
  have hWgt : (h : K) * |s| + (w : K) * |c| - 1 < ((newWidth c s w h : ℤ) : K) :=
    Int.sub_one_lt_floor _
  have hHle : ((newHeight c s w h : ℤ) : K) ≤ (h : K) * |c| + (w : K) * |s| :=
    Int.floor_le _
  have hHgt : (h : K) * |c| + (w : K) * |s| - 1 < ((newHeight c s w h : ℤ) : K) :=
    Int.sub_one_lt_floor _
  have hx : (rotMap c s w h (px, py)).1 =
      c * (px - rotCx K w) + s * (py - rotCy K h) + (newWidth c s w h : K) / 2 := by
    simp only [rotMap, rotM02]
    ring
  have hy : (rotMap c s w h (px, py)).2 =
      -s * (px - rotCx K w) + c * (py - rotCy K h) +
        (newHeight c s w h : K) / 2 := by
    simp only [rotMap, rotM12]
    ring
  have h1 : |c * (px - rotCx K w)| ≤ |c| * (((w : K) + 1) / 2) := by
    rw [abs_mul]
    exact mul_le_mul_of_nonneg_left hpxb (abs_nonneg c)
  have h2 : |s * (py - rotCy K h)| ≤ |s| * (((h : K) + 1) / 2) := by
    rw [abs_mul]
    exact mul_le_mul_of_nonneg_left hpyb (abs_nonneg s)
  have h3 : |(-s) * (px - rotCx K w)| ≤ |s| * (((w : K) + 1) / 2) := by
    rw [abs_mul, abs_neg]
    exact mul_le_mul_of_nonneg_left hpxb (abs_nonneg s)
  have h4 : |c * (py - rotCy K h)| ≤ |c| * (((h : K) + 1) / 2) := by
    rw [abs_mul]
    exact mul_le_mul_of_nonneg_left hpyb (abs_nonneg c)
  have hxabs : |c * (px - rotCx K w) + s * (py - rotCy K h)| ≤
      ((h : K) * |s| + (w : K) * |c|) / 2 + 1 := by
    have h5 := abs_add (c * (px - rotCx K w)) (s * (py - rotCy K h))
    linarith [h1, h2, hc, hs]
  have hyabs : |(-s) * (px - rotCx K w) + c * (py - rotCy K h)| ≤
      ((h : K) * |c| + (w : K) * |s|) / 2 + 1 := by
    have h5 := abs_add ((-s) * (px - rotCx K w)) (c * (py - rotCy K h))
    linarith [h3, h4, hc, hs]
  obtain ⟨hxl, hxr⟩ := abs_le.mp hxabs
  obtain ⟨hyl, hyr⟩ := abs_le.mp hyabs
  refine ⟨?_, ?_, ?_, ?_, ?_⟩
  · simp only [rotMap, rotM02, rotM12, Prod.mk.injEq]
    constructor <;> ring
  · rw [hx]; linarith
  · rw [hx]; linarith
  · rw [hy]; linarith
  · rw [hy]; linarith

/-- C5 witness: the identity rotation (cosine 1, sine 0) of a 10×10 sprite,
evaluated at its corner `(0, 0)` over `ℚ`. -/
theorem C5_rotation_grown_canvas_witness :
    rotMap (1 : ℚ) 0 10 10 (rotCx ℚ 10, rotCy ℚ 10) =
      ((newWidth (1 : ℚ) 0 10 10 : ℚ) / 2, (newHeight (1 : ℚ) 0 10 10 : ℚ) / 2) ∧
    -2 ≤ (rotMap (1 : ℚ) 0 10 10 (0, 0)).1 ∧
    (rotMap (1 : ℚ) 0 10 10 (0, 0)).1 ≤ (newWidth (1 : ℚ) 0 10 10 : ℚ) + 2 ∧
    -2 ≤ (rotMap (1 : ℚ) 0 10 10 (0, 0)).2 ∧
    (rotMap (1 : ℚ) 0 10 10 (0, 0)).2 ≤ (newHeight (1 : ℚ) 0 10 10 : ℚ) + 2 :=
  @C5_rotation_grown_canvas ℚ _ _ 1 0 10 10 (by norm_num) 0 0 (by norm_num)
    (by norm_num) (by norm_num) (by norm_num)
